import Mathlib

/-!
Shallow embedding of the PoPS pipeline (pops.py) and verification of its
natural-language specification.

Conventions used throughout:
* floating-point numbers are modelled as real numbers (`ℝ`); where a claim is
  settled on concrete inputs, the selection logic is kept polymorphic over a
  `LinearOrder` so that concrete instances can be evaluated over `ℚ`;
* a float NaN produced by the marginal-OLS degenerate guard is modelled as
  `none : Option _` (pandas comparisons with NaN are false, and
  `sort_values` places NaN last, which the orders below reproduce);
* a Python exception (KeyError from `.loc`, from a dict lookup, a raised
  numerical error) is modelled by an `Option _` result, `none` meaning the
  call raises;
* numpy arrays become functions out of `Fin n` / matrices `Matrix (Fin n) _ ℝ`.
-/

namespace PoPS

open Matrix

/-! ### General helpers -/

/-- Population variance, `np.var(Y)` (ddof = 0). -/
noncomputable def npVar {n : ℕ} (Y : Fin n → ℝ) : ℝ :=
  (∑ i, (Y i - (∑ j, Y j) / n) ^ 2) / n

/-- Check `np.isclose(x, 0)` with numpy defaults: `|x - 0| ≤ atol + rtol*|0|`,
`atol = 1e-8`. -/
def isCloseZero (x : ℝ) : Prop := |x| ≤ 1e-8

/-! ### Feature selection (`select_features_from_marginal_assoc_df`, pops.py 264-289)

A marginal-association table is modelled as a list of rows
`(feature name, p-value)`; `beta`, `se` and `r2` play no role in selection, so
rows carry only the `pval` column.  `none` is a NaN p-value. -/

/-- Comparison `pval < cutoff` as pandas evaluates it: False when pval is NaN. -/
def pvalLt {α : Type*} [LinearOrder α] : Option α → α → Bool
  | none, _ => false
  | some p, c => decide (p < c)

/-- Ordering used by `sort_values("pval")`: ascending, NaN placed last
(pandas default `na_position="last"`). -/
def pvalLe {α : Type*} [LinearOrder α] : Option α → Option α → Prop
  | none, none => True
  | none, some _ => False
  | some _, none => True
  | some p, some q => p ≤ q

instance {α : Type*} [LinearOrder α] : DecidableRel (pvalLe (α := α)) :=
  fun a b =>
    match a, b with
    | none, none => isTrue trivial
    | none, some _ => isFalse (fun h => h)
    | some _, none => isTrue trivial
    | some p, some q => inferInstanceAs (Decidable (p ≤ q))

/-- Row ordering for `marginal_assoc_df.sort_values("pval")`.  pandas' default
quicksort is unspecified on ties; we model it with a stable insertion sort,
which matches it whenever p-values are distinct. -/
def sortByPval {F α : Type*} [LinearOrder α] (df : List (F × Option α)) :
    List (F × Option α) :=
  List.insertionSort (fun r s => pvalLe r.2 s.2) df

/-- Model of `marginal_assoc_df.loc[subset_features]`: pandas reindexes the
table to the requested label order and raises `KeyError` (here: `none`) if a
requested label is absent.  Row lookup is by first match (the real table has a
unique index). -/
def locRows {F α : Type*} [DecidableEq F] (df : List (F × Option α))
    (names : List F) : Option (List (F × Option α)) :=
  names.mapM (fun s => df.find? (fun r => decide (r.1 = s)))

/-- `control_df` (pops.py 276): the rows set aside as control features, `[]`
when no control list is given. -/
def ctrlRows {F α : Type*} [DecidableEq F] (df1 : List (F × Option α))
    (control : Option (List F)) : List (F × Option α) :=
  match control with
  | none => []
  | some cs => df1.filter (fun r => decide (r.1 ∈ cs))

/-- The remaining non-control rows (pops.py 277). -/
def nonCtrlRows {F α : Type*} [DecidableEq F] (df1 : List (F × Option α))
    (control : Option (List F)) : List (F × Option α) :=
  match control with
  | none => df1
  | some cs => df1.filter (fun r => !decide (r.1 ∈ cs))

/-- The p-value cutoff stage (pops.py 279-280): keep rows with
`pval < cutoff` (false on NaN). -/
def cutoffRows {F α : Type*} [LinearOrder α] (rest : List (F × Option α))
    (cutoff : Option α) : List (F × Option α) :=
  match cutoff with
  | none => rest
  | some c => rest.filter (fun r => pvalLt r.2 c)

/-- The max-feature-count stage (pops.py 282-283):
`sort_values("pval").iloc[:N]`. -/
def topRows {F α : Type*} [LinearOrder α] (rest : List (F × Option α))
    (maxNum : Option ℕ) : List (F × Option α) :=
  match maxNum with
  | none => rest
  | some N => (sortByPval rest).take N

/-- Stages (2)-(5) of `select_features_from_marginal_assoc_df`: control
set-aside, p-value cutoff, top-N by p-value, and the final union, mirroring
pops.py lines 273-289 on a table `df1` that has already been subset. -/
def selectCore {F α : Type*} [DecidableEq F] [LinearOrder α]
    (df1 : List (F × Option α)) (control : Option (List F)) (cutoff : Option α)
    (maxNum : Option ℕ) : List F :=
  (topRows (cutoffRows (nonCtrlRows df1 control) cutoff) maxNum).map Prod.fst
    ++ (ctrlRows df1 control).map Prod.fst

/-- `select_features_from_marginal_assoc_df` (pops.py 264-289).  Returns
`none` when the subset stage raises a `KeyError`. -/
def select_features {F α : Type*} [DecidableEq F] [LinearOrder α]
    (df : List (F × Option α)) (subset : Option (List F))
    (control : Option (List F)) (cutoff : Option α) (maxNum : Option ℕ) :
    Option (List F) :=
  match subset with
  | none => some (selectCore df control cutoff maxNum)
  | some names => (locRows df names).map
      (fun df1 => selectCore df1 control cutoff maxNum)

/-- The final selected set computed by `main` (pops.py 519-523): annotate rows
with `isin(selected_features) & ~isnull(pval)` and re-read the selected names
from the table. -/
def final_selected {F α : Type*} [DecidableEq F]
    (df : List (F × Option α)) (sel : List F) : List F :=
  (df.filter (fun r => decide (r.1 ∈ sel) && r.2.isSome)).map Prod.fst

/-- Restriction of a table to a set of feature names, preserving table order;
used to state idempotence of selection ("the table restricted to its own
output"). -/
def restrictRows {F α : Type*} [DecidableEq F]
    (df : List (F × Option α)) (sel : List F) : List (F × Option α) :=
  df.filter (fun r => decide (r.1 ∈ sel))

/-! ### Natural sort (`natural_key`, pops.py 14-16) and shard loading
(`load_feature_matrix`, pops.py 292-312)

`re.split(r'(\d+)', s)` yields pieces that alternate non-digit, digit,
non-digit, ..., starting and ending with a (possibly empty) non-digit piece;
`natural_key` then maps digit pieces to `int`.  Two keys therefore always
carry the same piece type at the same position, so Python's element-wise list
comparison never mixes `int` with `str` on these keys. -/

/-- One piece of a natural-sort key: a non-digit chunk or a parsed number. -/
abbrev NatKeyPiece := String ⊕ ℕ

/-- Decimal value of a digit run, `int(s)` in Python. -/
def digitsToNat (ds : List Char) : ℕ :=
  ds.foldl (fun n c => 10 * n + (c.toNat - 48)) 0

/-- Parse a finished digit run (accumulated in reverse) into a key piece. -/
def mkDigitPiece (acc : List Char) : NatKeyPiece :=
  Sum.inr (digitsToNat acc.reverse)

/-- Parse a finished non-digit run (accumulated in reverse) into a key piece. -/
def mkChunkPiece (acc : List Char) : NatKeyPiece :=
  Sum.inl (String.mk acc.reverse)

/-- Split a character stream into alternating non-digit / digit runs, like
`re.split(r'(\d+)', s)`.  `isDig` says whether the run being accumulated (in
`acc`, reversed) is a digit run.  As in Python, the piece list starts and ends
with a possibly empty non-digit chunk. -/
def natKeyGo : List Char → Bool → List Char → List NatKeyPiece
  | [], true, acc => [mkDigitPiece acc, Sum.inl ""]
  | [], false, acc => [mkChunkPiece acc]
  | c :: cs, isDig, acc =>
    if c.isDigit = isDig then natKeyGo cs isDig (c :: acc)
    else (if isDig then mkDigitPiece acc else mkChunkPiece acc) ::
      natKeyGo cs c.isDigit [c]

/-- `natural_key` (pops.py 14-16): pieces of the string with digit runs parsed
as numbers. -/
def natKey (s : String) : List NatKeyPiece :=
  natKeyGo s.data false []

/-- Order on key pieces.  Positions compared by Python always hold the same
constructor; the cross-constructor values are arbitrary (Python would raise
comparing them). -/
def pieceLt : NatKeyPiece → NatKeyPiece → Bool
  | Sum.inl a, Sum.inl b => decide (a < b)
  | Sum.inr a, Sum.inr b => decide (a < b)
  | Sum.inl _, Sum.inr _ => false
  | Sum.inr _, Sum.inl _ => true

/-- Python's element-wise list comparison on natural keys. -/
def keyLe : List NatKeyPiece → List NatKeyPiece → Bool
  | [], _ => true
  | _ :: _, [] => false
  | a :: as, b :: bs => if a = b then keyLe as bs else pieceLt a b

/-- One on-disk feature shard: its identifier and its named columns.  The
column payload type `C` is abstract; `load_feature_matrix` only rearranges
whole columns. -/
structure Shard (C : Type*) where
  id : String
  cols : List (String × C)

/-- `sorted(file_ids, key=natural_key)` (pops.py 298): Python's sort is
stable, as is insertion sort. -/
def sortShards {C : Type*} (shards : List (Shard C)) : List (Shard C) :=
  List.insertionSort (fun s t => keyLe (natKey s.id) (natKey t.id) = true) shards

/-- `load_feature_matrix` (pops.py 292-312): reload every shard in canonical
id order; when a selected-feature set is given keep only matching columns
(`keep_inds`); horizontally concatenate surviving columns; return the shared
row identifiers unchanged. -/
def load_feature_matrix {C : Type*} (shards : List (Shard C))
    (selected : Option (List String)) (rows : List String) :
    List (String × C) × List String :=
  let picked := (sortShards shards).map (fun sh =>
    match selected with
    | none => sh.cols
    | some sel => sh.cols.filter (fun c => decide (c.1 ∈ sel)))
  (picked.flatten, rows)

/-! ### `get_indices_in_target_order` (pops.py 36-40)

The Python function builds a dict from reference names to their enumeration
index (later occurrences overwrite earlier ones) and then looks every target
up, raising `KeyError` when a target is absent. -/

/-- The loop `for i, e in enumerate(ref_list): mapper[e] = i`, threading the
running index and the dict built so far.  Because the recursive call wraps the
accumulated map, entries written later (larger indices) shadow earlier ones,
exactly like repeated dict assignment. -/
def refMapperGo {S : Type*} [DecidableEq S] :
    List S → ℕ → (S → Option ℕ) → (S → Option ℕ)
  | [], _, m => m
  | e :: rest, i, m =>
      refMapperGo rest (i + 1) (fun s => if s = e then some i else m s)

/-- The finished `ref_to_ind_mapper` dict. -/
def refMapper {S : Type*} [DecidableEq S] (ref : List S) : S → Option ℕ :=
  refMapperGo ref 0 (fun _ => none)

/-- `get_indices_in_target_order(ref_list, target_names)`; `none` models the
`KeyError` raised when some target name is missing from `ref_list`. -/
def get_indices_in_target_order {S : Type*} [DecidableEq S]
    (ref targets : List S) : Option (List ℕ) :=
  targets.mapM (refMapper ref)

/-! ### Block linear algebra (`block_Linv`, `block_AB`, `block_BA`,
pops.py 126-151)

`A[np.ix_(subset_ind, subset_ind)]` is the principal submatrix on the indices
carrying a given block label; it is modelled by `blockSub` on the subtype of
those indices.  The assignment loops over `set(block_labels)` write each row
(resp. column) exactly once, because the label sets partition the index range:
they are modelled entry-wise, guarding each matrix access by the membership
test the fancy-indexing performs. -/

/-- `A[np.ix_(subset_ind, subset_ind)]` for the block with label `l`. -/
def blockSub {m L : Type*} [DecidableEq L] (A : Matrix m m ℝ) (bl : m → L)
    (l : L) : Matrix {i : m // bl i = l} {i : m // bl i = l} ℝ :=
  A.submatrix (fun i => i.1) (fun j => j.1)

/-- What `np.linalg.cholesky` returns on a positive-definite input: a
lower-triangular matrix `CL` with `CL * CLᵀ = M` (numpy additionally fixes the
signs by positive diagonal entries; the claims proved below do not depend on
that normalisation). -/
def IsCholFactor {k : Type*} [LinearOrder k] [Fintype k]
    (M CL : Matrix k k ℝ) : Prop :=
  (∀ i j, i < j → CL i j = 0) ∧ CL * CLᵀ = M

open Classical in
/-- Model of `np.linalg.cholesky` (an external library routine, modelled by
its documented contract): some lower-triangular factor of `M` when one
exists, junk otherwise (numpy raises `LinAlgError` there; no claim below
evaluates that branch). -/
noncomputable def npCholesky {k : Type*} [LinearOrder k] [Fintype k]
    (M : Matrix k k ℝ) : Matrix k k ℝ :=
  if h : ∃ CL, IsCholFactor M CL then h.choose else 0

/-- Assembling a matrix from per-block submatrices into an otherwise-zero
matrix, the effect of `out[np.ix_(subset_ind, subset_ind)] = ...` over all
labels starting from `np.zeros(A.shape)`. -/
def blockPlace {m L : Type*} [DecidableEq L] (bl : m → L)
    (f : ∀ l, Matrix {i : m // bl i = l} {i : m // bl i = l} ℝ) :
    Matrix m m ℝ :=
  Matrix.of fun i j =>
    if h : bl i = bl j then f (bl i) ⟨i, rfl⟩ ⟨j, h.symm⟩ else 0

/-- `block_Linv` (pops.py 126-133): place `inv(cholesky(A[l,l]))` into each
block of an otherwise-zero matrix. -/
noncomputable def block_Linv {m L : Type*} [Fintype m] [DecidableEq m]
    [LinearOrder m] [DecidableEq L] (A : Matrix m m ℝ) (bl : m → L) :
    Matrix m m ℝ :=
  blockPlace bl (fun l => (npCholesky (blockSub A bl l))⁻¹)

/-- `block_AB` (pops.py 136-142): per block, `new_B[subset] = A[l,l] @
B[subset]`; row `i` of the result only sums over columns `k` of `A` in the
same block as `i`. -/
def block_AB {m L p : Type*} [Fintype m] [DecidableEq L]
    (A : Matrix m m ℝ) (bl : m → L) (B : Matrix m p ℝ) : Matrix m p ℝ :=
  Matrix.of fun i j => ∑ k, if bl k = bl i then A i k * B k j else 0

/-- `block_AB` applied to a 1-D array (the code passes both shapes). -/
def block_ABv {m L : Type*} [Fintype m] [DecidableEq L]
    (A : Matrix m m ℝ) (bl : m → L) (v : m → ℝ) : m → ℝ :=
  fun i => ∑ k, if bl k = bl i then A i k * v k else 0

/-- `block_BA` (pops.py 145-151): per block, `new_B[:,subset] = B[:,subset] @
A[l,l]`. -/
def block_BA {m L p : Type*} [Fintype m] [DecidableEq L]
    (A : Matrix m m ℝ) (bl : m → L) (B : Matrix p m ℝ) : Matrix p m ℝ :=
  Matrix.of fun i j => ∑ k, if bl k = bl j then B i k * A k j else 0

/-! ### Covariance regularization (`regularize_error_cov`, pops.py 154-162) -/

open Classical in
/-- Model of `min(np.linalg.eigvalsh(M))`: the smallest eigenvalue of a
Hermitian matrix (junk value 0 outside the Hermitian/nonempty case, which
`eigvalsh` never receives from this program). -/
noncomputable def minEig {k : Type*} [Fintype k] [DecidableEq k]
    (M : Matrix k k ℝ) : ℝ :=
  if h : M.IsHermitian ∧ Nonempty k then
    haveI := h.2
    Finset.univ.inf' Finset.univ_nonempty h.1.eigenvalues
  else 0

/-- The loop of pops.py 156-160: `min_lambda = 0`, then fold `min` over the
per-chromosome block minimum eigenvalues.  The fold of `min` starting at `0`
over the (iteration-order-irrelevant) label set equals the minimum of the
finite set extending the block minima with `0`. -/
noncomputable def minLambda {n : ℕ} {L : Type*} [DecidableEq L]
    (error_cov : Matrix (Fin n) (Fin n) ℝ) (chr : Fin n → L) : ℝ :=
  Finset.min'
    (insert 0 ((Finset.univ.image chr).image
      (fun l => minEig (blockSub error_cov chr l))))
    (Finset.insert_nonempty 0 _)

/-- `regularize_error_cov` (pops.py 154-162).  `chr i` stands for
`gene_annot_df.loc[Y_indices].CHR.values[i]`, the chromosome label of the
`i`-th score. -/
noncomputable def regularize_error_cov {n : ℕ} {L : Type*} [DecidableEq L]
    (error_cov : Matrix (Fin n) (Fin n) ℝ) (Y : Fin n → ℝ) (chr : Fin n → L) :
    Matrix (Fin n) (Fin n) ℝ :=
  error_cov +
    (|min (minLambda error_cov chr) 0| + 0.05 + 0.9 * max 0 (npVar Y - 1)) •
      (1 : Matrix (Fin n) (Fin n) ℝ)

/-! ### Marginal OLS (`batch_marginal_ols`, pops.py 195-218)

`scipy.stats.chi2.sf(·, 1)` is an external routine whose values none of the
claims depend on; the embedding is parametrised by it (`sf`). -/

/-- `np.sum(np.square(X), axis=0)`. -/
noncomputable def sum_sq_X {g f : ℕ} (X : Matrix (Fin g) (Fin f) ℝ) :
    Fin f → ℝ :=
  fun j => ∑ i, (X i j) ^ 2

open Classical in
/-- The guarded denominator (pops.py 201-203): entries whose sum of squares
is `np.isclose` to `0` are replaced by `1` before any division. -/
noncomputable def sum_sq_X_safe {g f : ℕ} (X : Matrix (Fin g) (Fin f) ℝ) :
    Fin f → ℝ :=
  fun j => if isCloseZero (sum_sq_X X j) then 1 else sum_sq_X X j

/-- `betas = Y.dot(X) / sum_sq_X_safe`. -/
noncomputable def margBeta {g f : ℕ} (Y : Fin g → ℝ)
    (X : Matrix (Fin g) (Fin f) ℝ) : Fin f → ℝ :=
  fun j => (∑ i, Y i * X i j) / sum_sq_X_safe X j

/-- `mse = np.mean(np.square(Y.reshape(-1,1) - X * betas), axis=0)`. -/
noncomputable def margMse {g f : ℕ} (Y : Fin g → ℝ)
    (X : Matrix (Fin g) (Fin f) ℝ) : Fin f → ℝ :=
  fun j => (∑ i, (Y i - X i j * margBeta Y X j) ^ 2) / g

/-- `se = np.sqrt(mse / sum_sq_X_safe)`. -/
noncomputable def margSe {g f : ℕ} (Y : Fin g → ℝ)
    (X : Matrix (Fin g) (Fin f) ℝ) : Fin f → ℝ :=
  fun j => Real.sqrt (margMse Y X j / sum_sq_X_safe X j)

/-- `pvals = scipy.stats.chi2.sf(np.square(betas / se), 1)`. -/
noncomputable def margPval {g f : ℕ} (sf : ℝ → ℝ) (Y : Fin g → ℝ)
    (X : Matrix (Fin g) (Fin f) ℝ) : Fin f → ℝ :=
  fun j => sf ((margBeta Y X j / margSe Y X j) ^ 2)

/-- `r2 = 1 - (mse / np.var(Y))`. -/
noncomputable def margR2 {g f : ℕ} (Y : Fin g → ℝ)
    (X : Matrix (Fin g) (Fin f) ℝ) : Fin f → ℝ :=
  fun j => 1 - margMse Y X j / npVar Y

open Classical in
/-- `batch_marginal_ols` (pops.py 195-218): the four statistics vectors with
every near-constant-to-0 column set to NaN (`none`). -/
noncomputable def batch_marginal_ols {g f : ℕ} (sf : ℝ → ℝ) (Y : Fin g → ℝ)
    (X : Matrix (Fin g) (Fin f) ℝ) :
    (Fin f → Option ℝ) × (Fin f → Option ℝ) × (Fin f → Option ℝ) ×
      (Fin f → Option ℝ) :=
  (fun j => if isCloseZero (sum_sq_X X j) then none else some (margBeta Y X j),
   fun j => if isCloseZero (sum_sq_X X j) then none else some (margSe Y X j),
   fun j => if isCloseZero (sum_sq_X X j) then none
     else some (margPval sf Y X j),
   fun j => if isCloseZero (sum_sq_X X j) then none else some (margR2 Y X j))

/-! ### Covariate projection (`project_out_covariates`, pops.py 165-183) -/

/-- `get_hla_genes` (pops.py 19-23): chromosome `"6"`, TSS in
`[20e6, 40e6]`. -/
def isHlaGene {g : ℕ} (chrOf : Fin g → String) (tss : Fin g → ℤ)
    (i : Fin g) : Prop :=
  chrOf i = "6" ∧ 20 * 10 ^ 6 ≤ tss i ∧ tss i ≤ 40 * 10 ^ 6

instance {g : ℕ} (chrOf : Fin g → String) (tss : Fin g → ℤ) (i : Fin g) :
    Decidable (isHlaGene chrOf tss i) := by
  unfold isHlaGene
  infer_instance

/-- `get_gene_indices_to_use` (pops.py 26-33): the boolean fitting mask over
the score vector's gene order.  `chrOf` and `tss` stand for the
`gene_annot_df` columns looked up at each `Y_indices` entry. -/
def get_gene_indices_to_use {g : ℕ} (chrOf : Fin g → String)
    (tss : Fin g → ℤ) (use_chrs : List String) (remove_hla : Bool)
    (i : Fin g) : Bool :=
  if remove_hla then
    decide (chrOf i ∈ use_chrs) && !(decide (isHlaGene chrOf tss i))
  else
    decide (chrOf i ∈ use_chrs)

/-- Model of `sklearn.linear_model.LinearRegression(fit_intercept=False)
.fit(X, y).coef_` (an external routine): the ordinary-least-squares
coefficients through the normal equations, which is the sklearn solution
whenever `XᵀX` is invertible (sklearn falls back to a pseudo-inverse in the
rank-deficient case, which no claim below evaluates). -/
noncomputable def olsBeta {ρ κ : Type*} [Fintype ρ] [Fintype κ]
    [DecidableEq κ] (X : Matrix ρ κ ℝ) (y : ρ → ℝ) : κ → ℝ :=
  (Xᵀ * X)⁻¹ *ᵥ (Xᵀ *ᵥ y)

/-- The model fitted by `project_out_covariates` (pops.py 170-181): restrict
covariates and scores to the mask rows, GLS-whiten them per chromosome block
when an error covariance is supplied, and fit intercept-free OLS. -/
noncomputable def fitBeta {g : ℕ} {κ : Type*} [Fintype κ] [DecidableEq κ]
    (Y : Fin g → ℝ) (cov : Matrix (Fin g) κ ℝ)
    (errCov : Option (Matrix (Fin g) (Fin g) ℝ)) (chrOf : Fin g → String)
    (mask : Fin g → Bool) : κ → ℝ :=
  let X0 : Matrix {i : Fin g // mask i = true} κ ℝ :=
    cov.submatrix (fun i => i.1) id
  let y0 : {i : Fin g // mask i = true} → ℝ := fun i => Y i.1
  match errCov with
  | none => olsBeta X0 y0
  | some ec =>
      let labels : {i : Fin g // mask i = true} → String := fun i => chrOf i.1
      let sec := ec.submatrix (fun i : {i : Fin g // mask i = true} => i.1)
        (fun j => j.1)
      let Linv := block_Linv sec labels
      olsBeta (block_AB Linv labels X0) (block_ABv Linv labels y0)

/-- The intercept detection of pops.py 167: some covariate column has
variance `np.isclose` to zero. -/
def hasConstCol {g K : ℕ} (cov : Matrix (Fin g) (Fin K) ℝ) : Prop :=
  ∃ k, isCloseZero (npVar (fun i => cov i k))

/-- `np.hstack((covariates, np.ones(...)))`: the covariates with an appended
all-ones intercept column (indexed by `none`). -/
def covExt {g K : ℕ} (cov : Matrix (Fin g) (Fin K) ℝ) :
    Matrix (Fin g) (Option (Fin K)) ℝ :=
  Matrix.of fun i k? => match k? with | some k => cov i k | none => 1

open Classical in
/-- `project_out_covariates` (pops.py 165-183): fit on the masked (whitened)
rows, then subtract the prediction on the full unwhitened covariate matrix
from the full score vector. -/
noncomputable def project_out_covariates {g K : ℕ} (Y : Fin g → ℝ)
    (cov : Matrix (Fin g) (Fin K) ℝ)
    (errCov : Option (Matrix (Fin g) (Fin g) ℝ)) (chrOf : Fin g → String)
    (tss : Fin g → ℤ) (use_chrs : List String) (remove_hla : Bool) :
    Fin g → ℝ :=
  let mask := get_gene_indices_to_use chrOf tss use_chrs remove_hla
  if hasConstCol cov then
    fun i => Y i - ∑ k, cov i k * fitBeta Y cov errCov chrOf mask k
  else
    fun i => Y i -
      ∑ k, covExt cov i k * fitBeta Y (covExt cov) errCov chrOf mask k

/-! ## Theorems -/

/-! ### `get_indices_in_target_order` (claim C10) -/

theorem refMapperGo_of_not_mem {S : Type*} [DecidableEq S] :
    ∀ (l : List S) (i : ℕ) (m : S → Option ℕ) {s : S}, s ∉ l →
      refMapperGo l i m s = m s
  | [], _, _, _, _ => rfl
  | e :: rest, i, m, s, h => by
    have hs : ¬s = e := fun he => h (he ▸ List.mem_cons_self e rest)
    have hr : s ∉ rest := fun hr => h (List.mem_cons_of_mem _ hr)
    rw [refMapperGo, refMapperGo_of_not_mem rest (i + 1) _ hr, if_neg hs]

theorem refMapperGo_of_mem {S : Type*} [DecidableEq S] :
    ∀ (l : List S) (i : ℕ) (m : S → Option ℕ) {s : S}, s ∈ l →
      ∃ k, l[k]? = some s ∧ (∀ j, k < j → l[j]? ≠ some s) ∧
        refMapperGo l i m s = some (i + k)
  | [], _, _, _, h => absurd h (List.not_mem_nil _)
  | e :: rest, i, m, s, h => by
    by_cases hr : s ∈ rest
    · obtain ⟨k, h1, h2, h3⟩ := refMapperGo_of_mem rest (i + 1)
        (fun t => if t = e then some i else m t) hr
      refine ⟨k + 1, by simpa using h1, ?_, ?_⟩
      · intro j hj
        match j, hj with
        | j + 1, hj =>
          simpa using h2 j (by omega)
      · rw [refMapperGo, h3]
        exact congrArg some (by omega)
    · have hs : s = e := by
        rcases List.mem_cons.mp h with h' | h'
        · exact h'
        · exact absurd h' hr
      refine ⟨0, by simpa using hs.symm, ?_, ?_⟩
      · intro j hj
        match j, hj with
        | j + 1, _ =>
          simp only [List.getElem?_cons_succ]
          intro hc
          obtain ⟨hb, hg⟩ := List.getElem?_eq_some.mp hc
          exact hr (hg ▸ List.getElem_mem hb)
      · rw [refMapperGo, refMapperGo_of_not_mem rest (i + 1) _ hr, if_pos hs,
          Nat.add_zero]

theorem refMapper_eq_none_iff {S : Type*} [DecidableEq S] (ref : List S)
    (s : S) : refMapper ref s = none ↔ s ∉ ref := by
  constructor
  · intro h hmem
    obtain ⟨k, -, -, h3⟩ := refMapperGo_of_mem ref 0 (fun _ => none) hmem
    rw [refMapper] at h
    rw [h] at h3
    exact Option.noConfusion h3
  · intro h
    rw [refMapper, refMapperGo_of_not_mem ref 0 _ h]

theorem refMapper_eq_some {S : Type*} [DecidableEq S] {ref : List S} {s : S}
    {k : ℕ} (h : refMapper ref s = some k) :
    ref[k]? = some s ∧ ∀ j, k < j → ref[j]? ≠ some s := by
  by_cases hmem : s ∈ ref
  · obtain ⟨k', h1, h2, h3⟩ := refMapperGo_of_mem ref 0 (fun _ => none) hmem
    rw [refMapper] at h
    rw [h] at h3
    have : k = k' := by
      have := Option.some.inj h3
      omega
    exact this ▸ ⟨h1, h2⟩
  · rw [(refMapper_eq_none_iff ref s).mpr hmem] at h
    exact Option.noConfusion h

theorem mapM_option_eq_none_iff {A B : Type*} (f : A → Option B) :
    ∀ l : List A, l.mapM f = none ↔ ∃ a ∈ l, f a = none := by
  intro l
  induction l with
  | nil =>
    rw [List.mapM_nil]
    simp
  | cons a as ih =>
    rw [List.mapM_cons]
    rcases hfa : f a with _ | b
    · constructor
      · intro _
        exact ⟨a, List.mem_cons_self a as, hfa⟩
      · intro _
        rfl
    · rcases hts : as.mapM f with _ | bs
      · constructor
        · intro _
          obtain ⟨u, hu1, hu2⟩ := ih.mp hts
          exact ⟨u, List.mem_cons_of_mem _ hu1, hu2⟩
        · intro _
          rfl
      · constructor
        · intro h
          exact Option.noConfusion h
        · intro ⟨u, hu1, hu2⟩
          rcases List.mem_cons.mp hu1 with rfl | hu1'
          · rw [hfa] at hu2
            exact Option.noConfusion hu2
          · rw [ih.mpr ⟨u, hu1', hu2⟩] at hts
            exact Option.noConfusion hts

theorem mapM_option_eq_some {A B : Type*} (f : A → Option B) :
    ∀ (l : List A) (bs : List B), l.mapM f = some bs →
      bs.length = l.length ∧ ∀ p ∈ bs.zip l, f p.2 = some p.1 := by
  intro l
  induction l with
  | nil =>
    intro bs h
    rw [List.mapM_nil] at h
    obtain rfl := Option.some.inj h
    simp
  | cons a as ih =>
    intro bs h
    rw [List.mapM_cons] at h
    rcases hfa : f a with _ | b <;> rw [hfa] at h
    · simp at h
    · rcases hts : as.mapM f with _ | bs' <;> rw [hts] at h
      · simp at h
      · simp only [Option.bind_some, Option.pure_def] at h
        obtain rfl := Option.some.inj h
        obtain ⟨ih1, ih2⟩ := ih bs' hts
        refine ⟨by simp [ih1], ?_⟩
        intro p hp
        rcases List.mem_cons.mp (by simpa using hp) with rfl | hp'
        · exact hfa
        · exact ih2 p hp'

theorem map_eq_map_of_zip {A B C : Type*} (g : A → C) (h : B → C) :
    ∀ (as : List A) (bs : List B), as.length = bs.length →
      (∀ p ∈ as.zip bs, g p.1 = h p.2) → as.map g = bs.map h := by
  intro as
  induction as with
  | nil =>
    intro bs hlen _
    cases bs with
    | nil => rfl
    | cons b bs => simp at hlen
  | cons a as ih =>
    intro bs hlen hzip
    cases bs with
    | nil => simp at hlen
    | cons b bs =>
      have h1 : g a = h b := hzip (a, b) (by simp)
      have h2 := ih bs (by simpa using hlen)
        (fun p hp => hzip p (List.mem_cons_of_mem _ hp))
      simp only [List.map_cons, h1, h2]

/-- C10.  `get_indices_in_target_order(ref_list, target_names)` raises a
lookup error iff some target name is absent from `ref_list`; when it returns
an index vector `idx`, then `ref_list[idx[k]] == target_names[k]` for every
`k` (so the `build_training` assertion `rows[X_train_inds] == training_genes`
can never fail), and each `idx[k]` points at the last occurrence of the name
in `ref_list`. -/
theorem get_indices_in_target_order_spec {S : Type*} [DecidableEq S]
    (ref targets : List S) :
    (get_indices_in_target_order ref targets = none ↔
      ∃ t ∈ targets, t ∉ ref) ∧
    ∀ idx, get_indices_in_target_order ref targets = some idx →
      idx.map (fun i => ref[i]?) = targets.map some ∧
      ∀ p ∈ idx.zip targets, ∀ j, p.1 < j → ref[j]? ≠ some p.2 := by
  constructor
  · rw [get_indices_in_target_order, mapM_option_eq_none_iff]
    constructor
    · intro ⟨t, ht1, ht2⟩
      exact ⟨t, ht1, (refMapper_eq_none_iff ref t).mp ht2⟩
    · intro ⟨t, ht1, ht2⟩
      exact ⟨t, ht1, (refMapper_eq_none_iff ref t).mpr ht2⟩
  · intro idx h
    rw [get_indices_in_target_order] at h
    obtain ⟨hlen, hzip⟩ := mapM_option_eq_some (refMapper ref) targets idx h
    constructor
    · refine map_eq_map_of_zip _ _ idx targets hlen ?_
      intro p hp
      exact (refMapper_eq_some (hzip p hp)).1
    · intro p hp
      exact (refMapper_eq_some (hzip p hp)).2

/-- Witness for C10 at `ref_list = ["a","b","a"]`,
`target_names = ["b","a"]`: the call returns `[1, 2]` (index 2 is the last
occurrence of `"a"`), realigned lookup reproduces the targets, and a missing
name (`["c"]`) raises. -/
theorem get_indices_in_target_order_spec_witness :
    ([1, 2].map (fun i => (["a", "b", "a"] : List String)[i]?) =
      ["b", "a"].map some) ∧
    (get_indices_in_target_order ["a", "b"] ["c"] = none ↔
      ∃ t ∈ ["c"], t ∉ (["a", "b"] : List String)) :=
  ⟨((get_indices_in_target_order_spec ["a", "b", "a"] ["b", "a"]).2
      [1, 2] (by decide)).1,
   (get_indices_in_target_order_spec ["a", "b"] ["c"]).1⟩

/-! ### Feature selection (claims C3, C4, C5) -/

theorem sortByPval_perm {F α : Type*} [LinearOrder α]
    (df : List (F × Option α)) : (sortByPval df).Perm df :=
  List.perm_insertionSort _ df

theorem pval_unique_of_nodup {F α : Type*} [DecidableEq F] :
    ∀ {df : List (F × Option α)}, (df.map Prod.fst).Nodup →
      ∀ {f : F} {p q : Option α}, (f, p) ∈ df → (f, q) ∈ df → p = q := by
  intro df
  induction df with
  | nil =>
    intro _ f p q hp
    exact absurd hp (List.not_mem_nil _)
  | cons r rs ih =>
    intro hnd f p q hp hq
    rw [List.map_cons, List.nodup_cons] at hnd
    rcases List.mem_cons.mp hp with hp1 | hp1 <;>
      rcases List.mem_cons.mp hq with hq1 | hq1
    · exact (Prod.ext_iff.mp (hp1.trans hq1.symm)).2
    · subst hp1
      exact absurd (List.mem_map_of_mem Prod.fst hq1) hnd.1
    · subst hq1
      exact absurd (List.mem_map_of_mem Prod.fst hp1) hnd.1
    · exact ih hnd.2 hp1 hq1

theorem mem_zip_left {A B : Type*} :
    ∀ {as : List A} {bs : List B}, as.length = bs.length →
      ∀ {a : A}, a ∈ as → ∃ b, (a, b) ∈ as.zip bs := by
  intro as
  induction as with
  | nil =>
    intro bs _ a ha
    exact absurd ha (List.not_mem_nil _)
  | cons x xs ih =>
    intro bs hlen a ha
    cases bs with
    | nil => simp at hlen
    | cons y ys =>
      rcases List.mem_cons.mp ha with rfl | ha'
      · exact ⟨y, by simp⟩
      · obtain ⟨b, hb⟩ := ih (by simpa using hlen) ha'
        exact ⟨b, List.mem_cons_of_mem _ hb⟩

theorem locRows_subset {F α : Type*} [DecidableEq F]
    {df df1 : List (F × Option α)} {names : List F}
    (h : locRows df names = some df1) : ∀ r ∈ df1, r ∈ df := by
  intro r hr
  obtain ⟨hlen, hzip⟩ := mapM_option_eq_some _ names df1 h
  obtain ⟨s, hs⟩ := mem_zip_left hlen hr
  exact List.mem_of_find?_eq_some (hzip (r, s) hs)

theorem select_features_some {F α : Type*} [DecidableEq F] [LinearOrder α]
    {df : List (F × Option α)} {subset control : Option (List F)}
    {cutoff : Option α} {maxNum : Option ℕ} {sel : List F}
    (h : select_features df subset control cutoff maxNum = some sel) :
    ∃ df1, (∀ r ∈ df1, r ∈ df) ∧ sel = selectCore df1 control cutoff maxNum := by
  cases subset with
  | none => exact ⟨df, fun r hr => hr, (Option.some.inj h).symm⟩
  | some names =>
    rw [select_features] at h
    rcases hloc : locRows df names with _ | df1 <;> rw [hloc] at h
    · exact Option.noConfusion h
    · exact ⟨df1, locRows_subset hloc, (Option.some.inj h).symm⟩

theorem mem_of_mem_ctrlRows {F α : Type*} [DecidableEq F]
    {df1 : List (F × Option α)} {control : Option (List F)}
    {r : F × Option α} (h : r ∈ ctrlRows df1 control) : r ∈ df1 := by
  cases control with
  | none => exact absurd h (List.not_mem_nil _)
  | some cs => exact List.mem_of_mem_filter h

theorem nonCtrlRows_sublist {F α : Type*} [DecidableEq F]
    (df1 : List (F × Option α)) (control : Option (List F)) :
    List.Sublist (nonCtrlRows df1 control) df1 := by
  cases control with
  | none => exact List.Sublist.refl df1
  | some cs => exact List.filter_sublist df1

theorem cutoffRows_sublist {F α : Type*} [LinearOrder α]
    (rest : List (F × Option α)) (cutoff : Option α) :
    List.Sublist (cutoffRows rest cutoff) rest := by
  cases cutoff with
  | none => exact List.Sublist.refl rest
  | some c => exact List.filter_sublist rest

theorem pvalLt_of_mem_cutoffRows {F α : Type*} [LinearOrder α]
    {rest : List (F × Option α)} {c : α} {r : F × Option α}
    (h : r ∈ cutoffRows rest (some c)) : pvalLt r.2 c = true :=
  (List.mem_filter.mp h).2

theorem mem_of_mem_topRows {F α : Type*} [LinearOrder α]
    {rest : List (F × Option α)} {maxNum : Option ℕ} {r : F × Option α}
    (h : r ∈ topRows rest maxNum) : r ∈ rest := by
  cases maxNum with
  | none => exact h
  | some N =>
    exact (List.perm_insertionSort _ rest).mem_iff.mp
      (List.take_subset N _ h)

theorem nonCtrl_ctrl_name_ne {F α : Type*} [DecidableEq F]
    {df1 : List (F × Option α)} {control : Option (List F)}
    {r r' : F × Option α} (h : r ∈ nonCtrlRows df1 control)
    (h' : r' ∈ ctrlRows df1 control) : r.1 ≠ r'.1 := by
  cases control with
  | none => exact absurd h' (List.not_mem_nil _)
  | some cs =>
    have h1 := (List.mem_filter.mp h).2
    have h2 := (List.mem_filter.mp h').2
    simp only [Bool.not_eq_true', decide_eq_false_iff_not] at h1
    simp only [decide_eq_true_eq] at h2
    intro he
    exact h1 (he ▸ h2)

theorem ctrlRows_filter {F α : Type*} [DecidableEq F]
    (df1 : List (F × Option α)) (control : Option (List F))
    (q : F × Option α → Bool) :
    ctrlRows (df1.filter q) control = (ctrlRows df1 control).filter q := by
  cases control with
  | none => rfl
  | some cs =>
    show (df1.filter q).filter _ = (df1.filter _).filter q
    rw [List.filter_filter, List.filter_filter]
    exact List.filter_congr (fun x _ => Bool.and_comm _ _)

theorem nonCtrlRows_filter {F α : Type*} [DecidableEq F]
    (df1 : List (F × Option α)) (control : Option (List F))
    (q : F × Option α → Bool) :
    nonCtrlRows (df1.filter q) control = (nonCtrlRows df1 control).filter q := by
  cases control with
  | none => rfl
  | some cs =>
    show (df1.filter q).filter _ = (df1.filter _).filter q
    rw [List.filter_filter, List.filter_filter]
    exact List.filter_congr (fun x _ => Bool.and_comm _ _)

theorem cutoffRows_filter {F α : Type*} [LinearOrder α]
    (rest : List (F × Option α)) (cutoff : Option α)
    (q : F × Option α → Bool) :
    cutoffRows (rest.filter q) cutoff = (cutoffRows rest cutoff).filter q := by
  cases cutoff with
  | none => rfl
  | some c =>
    show (rest.filter q).filter _ = (rest.filter _).filter q
    rw [List.filter_filter, List.filter_filter]
    exact List.filter_congr (fun x _ => Bool.and_comm _ _)

theorem nodup_subset_length {A : Type*} [DecidableEq A] {l l2 : List A}
    (h : l.Nodup) (hs : l ⊆ l2) : l.length ≤ l2.length := by
  calc l.length = l.toFinset.card := (List.toFinset_card_of_nodup h).symm
    _ ≤ l2.toFinset.card := Finset.card_le_card (fun x hx => by
        rw [List.mem_toFinset] at *
        exact hs hx)
    _ ≤ l2.length := l2.toFinset_card_le

/-- C3.  A row whose p-value is NaN is never in the final selected set (the
set `main` recomputes after `selected & ~isnull(pval)`, pops.py 519-523), for
every combination of selection criteria; moreover such a row, unless listed
as a control feature, never even survives `select_features`' own cutoff-based
filter when a p-value cutoff is given. -/
theorem nan_pval_never_in_final_selection {F α : Type*} [DecidableEq F]
    [LinearOrder α] (df : List (F × Option α)) (subset control : Option (List F))
    (cutoff : Option α) (maxNum : Option ℕ) (f : F)
    (hnd : (df.map Prod.fst).Nodup) (hf : (f, (none : Option α)) ∈ df) :
    (∀ sel, select_features df subset control cutoff maxNum = some sel →
      f ∉ final_selected df sel) ∧
    (∀ c, cutoff = some c → (∀ cs, control = some cs → f ∉ cs) →
      ∀ sel, select_features df subset control cutoff maxNum = some sel →
        f ∉ sel) := by
  constructor
  · intro sel _ hmem
    rw [final_selected] at hmem
    obtain ⟨r, hr1, hr2⟩ := List.mem_map.mp hmem
    have hrdf : r ∈ df := List.mem_of_mem_filter hr1
    have hprop := (List.mem_filter.mp hr1).2
    have hsome : r.2.isSome = true := by
      simp only [Bool.and_eq_true] at hprop
      exact hprop.2
    have hr2' : (f, r.2) ∈ df := by
      rw [← hr2]
      exact hrdf
    have : r.2 = none := pval_unique_of_nodup hnd hr2' hf
    rw [this] at hsome
    exact Bool.noConfusion hsome
  · intro c hcut hctrl sel hsel hmem
    obtain ⟨df1, hsub, rfl⟩ := select_features_some hsel
    rw [selectCore] at hmem
    rcases List.mem_append.mp hmem with hmem' | hmem'
    · obtain ⟨r, hr, hrx⟩ := List.mem_map.mp hmem'
      have hr1 : r ∈ cutoffRows (nonCtrlRows df1 control) cutoff :=
        mem_of_mem_topRows hr
      have hrdf : r ∈ df :=
        hsub r ((nonCtrlRows_sublist df1 control).subset
          ((cutoffRows_sublist _ cutoff).subset hr1))
      have hr2' : (f, r.2) ∈ df := by
        rw [← hrx]
        exact hrdf
      have hnone : r.2 = none := pval_unique_of_nodup hnd hr2' hf
      rw [hcut] at hr1
      have := pvalLt_of_mem_cutoffRows hr1
      rw [hnone] at this
      exact Bool.noConfusion this
    · obtain ⟨r, hr, hrx⟩ := List.mem_map.mp hmem'
      cases control with
      | none => exact absurd hr (List.not_mem_nil _)
      | some cs =>
        have h2 := (List.mem_filter.mp hr).2
        simp only [decide_eq_true_eq] at h2
        exact hctrl cs rfl (hrx ▸ h2)

/-- Witness for C3 at the one-row table `[("A", NaN)]` with no criteria: the
row is selected by `select_features` (no cutoff filters it) but `main`'s
NaN-filter removes it from the final set. -/
theorem nan_pval_never_in_final_selection_witness :
    "A" ∉ final_selected [(("A" : String), (none : Option ℚ))] ["A"] :=
  (nan_pval_never_in_final_selection [(("A" : String), (none : Option ℚ))]
      none none none none "A" (by decide) (by decide)).1 ["A"] (by decide)

/-- C4.  The ordering contract on the four-row table: with no subset list,
control `["C1"]`, cutoff `0.05` and max count `2`, the selection is exactly
`{D, A, C1}` (returned in sorted-then-control order `["D","A","C1"]`): the
two lowest p-values strictly under the cutoff among non-control rows, plus
the control feature unconditionally and not counted against the budget. -/
theorem select_features_ordering_contract :
    select_features
      [("A", some (0.01 : ℚ)), ("B", some 0.2), ("C1", some 0.9),
        ("D", some 0.001)]
      none (some ["C1"]) (some 0.05) (some 2) = some ["D", "A", "C1"] := by
  norm_num [select_features, selectCore, ctrlRows, nonCtrlRows, cutoffRows,
    topRows, sortByPval, restrictRows, locRows, final_selected,
    List.insertionSort, List.orderedInsert, pvalLe, pvalLt,
    List.filter_cons, List.filter_nil, List.map_cons, List.map_nil,
    List.take_succ_cons, List.take_zero, List.mapM.loop, List.find?]
  simp
  norm_num [pvalLe]

/-- Counterexample to C5 as stated: selection is not idempotent for every
criteria combination.  With the table `[("X", 0.01), ("Z", 0.9)]`, subset
allowlist `["X","Z"]` and cutoff `0.05`, the first application selects
`["X"]`, and re-applying the same criteria to the table restricted to that
output raises a lookup error (`.loc` KeyError on the dropped `"Z"`) instead
of returning the same set. -/
theorem select_features_idempotence_cex :
    select_features [("X", some (0.01 : ℚ)), ("Z", some 0.9)]
        (some ["X", "Z"]) none (some 0.05) none = some ["X"] ∧
    select_features
        (restrictRows [("X", some (0.01 : ℚ)), ("Z", some 0.9)] ["X"])
        (some ["X", "Z"]) none (some 0.05) none = none := by
  constructor
  · norm_num [select_features, selectCore, ctrlRows, nonCtrlRows, cutoffRows,
    topRows, sortByPval, restrictRows, locRows, final_selected,
    List.insertionSort, List.orderedInsert, pvalLe, pvalLt,
    List.filter_cons, List.filter_nil, List.map_cons, List.map_nil,
    List.take_succ_cons, List.take_zero, List.mapM.loop, List.find?]
    simp
    norm_num [pvalLe]
  · norm_num [select_features, selectCore, ctrlRows, nonCtrlRows, cutoffRows,
    topRows, sortByPval, restrictRows, locRows, final_selected,
    List.insertionSort, List.orderedInsert, pvalLe, pvalLt,
    List.filter_cons, List.filter_nil, List.map_cons, List.map_nil,
    List.take_succ_cons, List.take_zero, List.mapM.loop, List.find?]
    simp

/-- C5 amended: when no subset allowlist is given, selection is idempotent —
re-applying `select_features` with the same criteria to the table restricted
to its own output succeeds (no error) and selects the same set.  (With a
subset allowlist the second application raises a lookup error whenever the
first application dropped an allowlisted feature, per the counterexample.) -/
theorem select_features_idempotent_no_subset {F α : Type*} [DecidableEq F]
    [LinearOrder α] (df : List (F × Option α)) (control : Option (List F))
    (cutoff : Option α) (maxNum : Option ℕ) (sel : List F)
    (hnd : (df.map Prod.fst).Nodup)
    (h1 : select_features df none control cutoff maxNum = some sel) :
    ∃ sel2,
      select_features (restrictRows df sel) none control cutoff maxNum =
        some sel2 ∧ ∀ x, x ∈ sel2 ↔ x ∈ sel := by
  have hsel : sel = selectCore df control cutoff maxNum :=
    (Option.some.inj h1).symm
  refine ⟨selectCore (restrictRows df sel) control cutoff maxNum, rfl, ?_⟩
  intro x
  have hq : restrictRows df sel = df.filter (fun r => decide (r.1 ∈ sel)) := rfl
  set q : F × Option α → Bool := fun r => decide (r.1 ∈ sel) with hqdef
  set ctrl1 := ctrlRows df control with hctrl1
  set rest1 := cutoffRows (nonCtrlRows df control) cutoff with hrest1
  set rest2 := topRows rest1 maxNum with hrest2
  have hselspan : sel = rest2.map Prod.fst ++ ctrl1.map Prod.fst := hsel
  -- Step A: the control rows of the restricted table are the original ones.
  have hA : ctrlRows (restrictRows df sel) control = ctrl1 := by
    rw [hq, ctrlRows_filter]
    refine List.filter_eq_self.mpr ?_
    intro r hr
    simp only [hqdef, decide_eq_true_eq]
    rw [hselspan]
    exact List.mem_append.mpr (Or.inr (List.mem_map_of_mem Prod.fst hr))
  -- Step B: the cutoff survivors of the restricted table are the original
  -- ones restricted to the selected names.
  have hB : cutoffRows (nonCtrlRows (restrictRows df sel) control) cutoff =
      rest1.filter q := by
    rw [hq, nonCtrlRows_filter, cutoffRows_filter]
  -- Step C: every top-N row of round 1 is a cutoff survivor of round 2.
  have hC : ∀ r ∈ rest2, r ∈ rest1.filter q := by
    intro r hr
    refine List.mem_filter.mpr ⟨mem_of_mem_topRows hr, ?_⟩
    simp only [hqdef, decide_eq_true_eq]
    rw [hselspan]
    exact List.mem_append.mpr (Or.inl (List.mem_map_of_mem Prod.fst hr))
  -- Step D: conversely every cutoff survivor of round 2 carries a round-1
  -- top-N name.
  have hD : ∀ r ∈ rest1.filter q, r.1 ∈ rest2.map Prod.fst := by
    intro r hr
    obtain ⟨hr1, hrq⟩ := List.mem_filter.mp hr
    simp only [hqdef, decide_eq_true_eq] at hrq
    rw [hselspan] at hrq
    rcases List.mem_append.mp hrq with h' | h'
    · exact h'
    · exfalso
      obtain ⟨r', hr', hr'x⟩ := List.mem_map.mp h'
      exact nonCtrl_ctrl_name_ne ((cutoffRows_sublist _ cutoff).subset hr1)
        hr' hr'x.symm
  -- Step E: round 2 has at most as many cutoff survivors as round 1 kept.
  have hE : (rest1.filter q).length ≤ rest2.length := by
    have hnd2 : ((rest1.filter q).map Prod.fst).Nodup := by
      refine hnd.sublist (List.Sublist.map Prod.fst ?_)
      exact ((List.filter_sublist rest1).trans
        (cutoffRows_sublist _ cutoff)).trans (nonCtrlRows_sublist df control)
    have hsubnames : (rest1.filter q).map Prod.fst ⊆ rest2.map Prod.fst := by
      intro y hy
      obtain ⟨r, hr, rfl⟩ := List.mem_map.mp hy
      exact hD r hr
    calc (rest1.filter q).length = ((rest1.filter q).map Prod.fst).length :=
        (List.length_map _ _).symm
      _ ≤ (rest2.map Prod.fst).length := nodup_subset_length hnd2 hsubnames
      _ = rest2.length := List.length_map _ _
  -- Step F: the round-2 top-N stage keeps everything.
  have hF : ∀ r, r ∈ topRows (rest1.filter q) maxNum ↔ r ∈ rest1.filter q := by
    intro r
    cases maxNum with
    | none => exact Iff.rfl
    | some N =>
      have hlen : (sortByPval (rest1.filter q)).length ≤ N := by
        rw [(sortByPval_perm (rest1.filter q)).length_eq]
        refine hE.trans ?_
        have : rest2.length = (List.take N (sortByPval rest1)).length := rfl
        rw [this, List.length_take]
        exact min_le_left N _
      show r ∈ List.take N (sortByPval (rest1.filter q)) ↔ _
      rw [List.take_of_length_le hlen]
      exact (sortByPval_perm (rest1.filter q)).mem_iff
  -- Assemble.
  show x ∈ selectCore (restrictRows df sel) control cutoff maxNum ↔ x ∈ sel
  rw [selectCore, hA, hB]
  conv_rhs => rw [hselspan]
  rw [List.mem_append, List.mem_append]
  constructor
  · rintro (h' | h')
    · obtain ⟨r, hr, rfl⟩ := List.mem_map.mp h'
      exact Or.inl (hD r ((hF r).mp hr))
    · exact Or.inr h'
  · rintro (h' | h')
    · obtain ⟨r, hr, rfl⟩ := List.mem_map.mp h'
      exact Or.inl (List.mem_map_of_mem Prod.fst ((hF r).mpr (hC r hr)))
    · exact Or.inr h'

/-- Witness for C5 amended, on the C4 table with its criteria (no subset
list): the second application returns the same set `{D, A, C1}`. -/
theorem select_features_idempotent_no_subset_witness :
    ∃ sel2,
      select_features
          (restrictRows
            [("A", some (0.01 : ℚ)), ("B", some 0.2), ("C1", some 0.9),
              ("D", some 0.001)] ["D", "A", "C1"])
          none (some ["C1"]) (some 0.05) (some 2) = some sel2 ∧
        ∀ x, x ∈ sel2 ↔ x ∈ (["D", "A", "C1"] : List String) :=
  select_features_idempotent_no_subset
    [("A", some (0.01 : ℚ)), ("B", some 0.2), ("C1", some 0.9),
      ("D", some 0.001)]
    (some ["C1"]) (some 0.05) (some 2) ["D", "A", "C1"] (by decide)
    (by norm_num [select_features, selectCore, ctrlRows, nonCtrlRows, cutoffRows,
    topRows, sortByPval, restrictRows, locRows, final_selected,
    List.insertionSort, List.orderedInsert, pvalLe, pvalLt,
    List.filter_cons, List.filter_nil, List.map_cons, List.map_nil,
    List.take_succ_cons, List.take_zero, List.mapM.loop, List.find?]
        simp
        norm_num [pvalLe])

/-! ### `load_feature_matrix` (claim C8) -/

theorem map_fst_filter_fst {A B : Type*} (p : A → Bool) :
    ∀ l : List (A × B),
      (l.filter (fun c => p c.1)).map Prod.fst = (l.map Prod.fst).filter p := by
  intro l
  induction l with
  | nil => rfl
  | cons r rs ih =>
    cases hp : p r.1 <;>
      simp [List.filter_cons, List.map_cons, hp, ih]

/-- C8.  `load_feature_matrix` returns (i) the row identifiers unchanged;
(ii) the horizontal concatenation, shard by shard in the canonical
(natural-key sorted, a permutation of the input) shard order, of each shard's
columns filtered to the selected names, preserving within-shard column order
— so output column order follows concatenation order, not selection order;
and (iii) a selected name appearing in no shard is silently dropped: the call
is total and the name is simply absent from the output. -/
theorem load_feature_matrix_spec {C : Type*} (shards : List (Shard C))
    (selected : List String) (rows : List String) :
    ((load_feature_matrix shards (some selected) rows).2 = rows) ∧
    ((load_feature_matrix shards (some selected) rows).1.map Prod.fst =
      ((sortShards shards).map
        (fun sh => (sh.cols.map Prod.fst).filter
          (fun x => decide (x ∈ selected)))).flatten) ∧
    ((sortShards shards).Perm shards) ∧
    (∀ f ∈ selected, (∀ sh ∈ shards, ∀ c ∈ sh.cols, c.1 ≠ f) →
      ∀ c ∈ (load_feature_matrix shards (some selected) rows).1, c.1 ≠ f) := by
  refine ⟨rfl, ?_, List.perm_insertionSort _ shards, ?_⟩
  · show (((sortShards shards).map
        (fun sh => sh.cols.filter (fun c => decide (c.1 ∈ selected)))).flatten
          ).map Prod.fst = _
    rw [List.map_flatten, List.map_map]
    refine congrArg List.flatten
      (congrArg (fun F => List.map F (sortShards shards))
        (funext fun sh => ?_))
    exact map_fst_filter_fst (fun x => decide (x ∈ selected)) sh.cols
  · intro f _ habsent c hc hcf
    have hc' : c ∈ ((sortShards shards).map
        (fun sh => sh.cols.filter (fun x => decide (x.1 ∈ selected)))).flatten
      := hc
    obtain ⟨l, hl, hcl⟩ := List.mem_flatten.mp hc'
    obtain ⟨sh, hsh, rfl⟩ := List.mem_map.mp hl
    have hsh' : sh ∈ shards :=
      (List.perm_insertionSort _ shards).mem_iff.mp hsh
    exact habsent sh hsh' c (List.mem_of_mem_filter hcl) hcf

/-- Witness for C8: two shards with identifiers `"mat.10"` and `"mat.2"`;
`"mat.2"` sorts first under the natural key, the selected name `"zzz"`
matches no column and is silently dropped. -/
theorem load_feature_matrix_spec_witness :
    ((load_feature_matrix
        [⟨"mat.10", [("b", 1)]⟩, ⟨"mat.2", [("a", 2), ("c", 3)]⟩]
        (some ["a", "b", "zzz"]) ["g1"]).1.map Prod.fst =
      ((sortShards [⟨"mat.10", [("b", 1)]⟩, ⟨"mat.2", [("a", 2), ("c", 3)]⟩]).map
        (fun sh => (sh.cols.map Prod.fst).filter
          (fun x => decide (x ∈ ["a", "b", "zzz"])))).flatten) ∧
    (∀ c ∈ (load_feature_matrix
        [⟨"mat.10", [("b", (1 : ℕ))]⟩, ⟨"mat.2", [("a", 2), ("c", 3)]⟩]
        (some ["a", "b", "zzz"]) ["g1"]).1, c.1 ≠ "zzz") :=
  ⟨(load_feature_matrix_spec
      [⟨"mat.10", [("b", 1)]⟩, ⟨"mat.2", [("a", 2), ("c", 3)]⟩]
      ["a", "b", "zzz"] ["g1"]).2.1,
   (load_feature_matrix_spec
      [⟨"mat.10", [("b", 1)]⟩, ⟨"mat.2", [("a", 2), ("c", 3)]⟩]
      ["a", "b", "zzz"] ["g1"]).2.2.2 "zzz" (by decide) (by decide)⟩

/-! ### `batch_marginal_ols` (claim C7) -/

/-- C7.  The degenerate-column guard of `batch_marginal_ols`: (i) the guarded
denominator is strictly positive for every input, so no division by zero is
ever performed; (ii) every column whose sum of squares is `np.isclose` to 0
gets NaN for all four statistics; (iii) every other column gets the ordinary
univariate statistics, with the true (unguarded) sum of squares as
denominator. -/
theorem batch_marginal_ols_guard {g f : ℕ} (sf : ℝ → ℝ) (Y : Fin g → ℝ)
    (X : Matrix (Fin g) (Fin f) ℝ) :
    (∀ j, 0 < sum_sq_X_safe X j) ∧
    (∀ j, isCloseZero (sum_sq_X X j) →
      (batch_marginal_ols sf Y X).1 j = none ∧
      (batch_marginal_ols sf Y X).2.1 j = none ∧
      (batch_marginal_ols sf Y X).2.2.1 j = none ∧
      (batch_marginal_ols sf Y X).2.2.2 j = none) ∧
    (∀ j, ¬isCloseZero (sum_sq_X X j) →
      sum_sq_X_safe X j = sum_sq_X X j ∧
      (batch_marginal_ols sf Y X).1 j =
        some ((∑ i, Y i * X i j) / sum_sq_X X j) ∧
      (batch_marginal_ols sf Y X).2.1 j =
        some (Real.sqrt (margMse Y X j / sum_sq_X X j)) ∧
      (batch_marginal_ols sf Y X).2.2.1 j = some (margPval sf Y X j) ∧
      (batch_marginal_ols sf Y X).2.2.2 j =
        some (1 - margMse Y X j / npVar Y)) := by
  have hnn : ∀ j, 0 ≤ sum_sq_X X j := by
    intro j
    exact Finset.sum_nonneg fun i _ => sq_nonneg (X i j)
  have hsafe : ∀ j, ¬isCloseZero (sum_sq_X X j) →
      sum_sq_X_safe X j = sum_sq_X X j := by
    intro j hj
    rw [sum_sq_X_safe, if_neg hj]
  refine ⟨?_, ?_, ?_⟩
  · intro j
    rw [sum_sq_X_safe]
    split
    · exact one_pos
    case isFalse hj =>
      rcases lt_or_le (1e-8) (sum_sq_X X j) with h | h
      · calc (0 : ℝ) < 1e-8 := by norm_num
          _ < sum_sq_X X j := h
      · exact absurd (abs_le.mpr ⟨by linarith [hnn j], h⟩) hj
  · intro j hj
    refine ⟨?_, ?_, ?_, ?_⟩ <;>
      simp only [batch_marginal_ols, if_pos hj]
  · intro j hj
    refine ⟨hsafe j hj, ?_, ?_, ?_, ?_⟩
    · simp only [batch_marginal_ols, if_neg hj, margBeta, hsafe j hj]
    · simp only [batch_marginal_ols, if_neg hj, margSe, hsafe j hj]
    · simp only [batch_marginal_ols, if_neg hj]
    · simp only [batch_marginal_ols, if_neg hj, margR2]

/-- Witness for C7: the constant-zero column of `!![0]` gets NaN statistics,
and the column of `!![2]` (sum of squares 4) gets the ordinary beta. -/
theorem batch_marginal_ols_guard_witness :
    ((batch_marginal_ols id ![3] !![0]).1 0 = none ∧
      (batch_marginal_ols id ![3] !![0]).2.2.1 0 = none) ∧
    (batch_marginal_ols id ![3] !![2]).1 0 =
      some ((∑ i, (![3] : Fin 1 → ℝ) i * (!![2] : Matrix (Fin 1) (Fin 1) ℝ) i 0)
        / sum_sq_X !![2] 0) := by
  have h0 : isCloseZero (sum_sq_X (!![0] : Matrix (Fin 1) (Fin 1) ℝ) 0) := by
    simp [isCloseZero, sum_sq_X]
    norm_num
  have h2 : ¬isCloseZero (sum_sq_X (!![2] : Matrix (Fin 1) (Fin 1) ℝ) 0) := by
    simp [isCloseZero, sum_sq_X]
    norm_num
  refine ⟨⟨?_, ?_⟩, ?_⟩
  · exact ((batch_marginal_ols_guard id ![3] !![0]).2.1 0 h0).1
  · exact ((batch_marginal_ols_guard id ![3] !![0]).2.1 0 h0).2.2.1
  · exact ((batch_marginal_ols_guard id ![3] !![2]).2.2 0 h2).2.1

/-! ### `project_out_covariates` (claim C6) -/

theorem fitBeta_congr {g : ℕ} {κ : Type*} [Fintype κ] [DecidableEq κ]
    {Y Y' : Fin g → ℝ} (cov : Matrix (Fin g) κ ℝ)
    (errCov : Option (Matrix (Fin g) (Fin g) ℝ)) (chrOf : Fin g → String)
    (mask : Fin g → Bool) (h : ∀ i, mask i = true → Y' i = Y i) :
    fitBeta Y' cov errCov chrOf mask = fitBeta Y cov errCov chrOf mask := by
  have hy : (fun i : {i : Fin g // mask i = true} => Y' i.1) =
      fun i : {i : Fin g // mask i = true} => Y i.1 :=
    funext fun i => h i.1 i.2
  cases errCov with
  | none =>
    simp only [fitBeta, hy]
  | some ec =>
    simp only [fitBeta, hy]

/-- C6.  `project_out_covariates` fits OLS only on the (whitened, when an
error covariance is supplied — the whitening is inside `fitBeta`) rows of the
chromosome/HLA-filtered gene subset, but returns, for every gene of the
input, `Y` minus the fitted model's prediction on the full unwhitened
covariate matrix (the intercept-extended one exactly when no near-constant
column was detected); the output is indexed by the same `Fin g` as `Y`.  The
third conjunct expresses "fits only on the subset": the correction applied
to each gene is unchanged by modifying `Y` outside the fitting mask. -/
theorem project_out_covariates_spec {g K : ℕ} (Y : Fin g → ℝ)
    (cov : Matrix (Fin g) (Fin K) ℝ)
    (errCov : Option (Matrix (Fin g) (Fin g) ℝ)) (chrOf : Fin g → String)
    (tss : Fin g → ℤ) (use_chrs : List String) (remove_hla : Bool) :
    (hasConstCol cov →
      project_out_covariates Y cov errCov chrOf tss use_chrs remove_hla =
        fun i => Y i - ∑ k, cov i k *
          fitBeta Y cov errCov chrOf
            (get_gene_indices_to_use chrOf tss use_chrs remove_hla) k) ∧
    (¬hasConstCol cov →
      project_out_covariates Y cov errCov chrOf tss use_chrs remove_hla =
        fun i => Y i - ∑ k, covExt cov i k *
          fitBeta Y (covExt cov) errCov chrOf
            (get_gene_indices_to_use chrOf tss use_chrs remove_hla) k) ∧
    (∀ Y', (∀ i, get_gene_indices_to_use chrOf tss use_chrs remove_hla i =
          true → Y' i = Y i) →
      ∀ j, project_out_covariates Y' cov errCov chrOf tss use_chrs remove_hla j
            - Y' j =
          project_out_covariates Y cov errCov chrOf tss use_chrs remove_hla j
            - Y j) := by
  refine ⟨?_, ?_, ?_⟩
  · intro h
    simp only [project_out_covariates, if_pos h]
  · intro h
    simp only [project_out_covariates, if_neg h]
  · intro Y' hY' j
    have hbeta1 := fitBeta_congr cov errCov chrOf
      (get_gene_indices_to_use chrOf tss use_chrs remove_hla) hY'
    have hbeta2 := fitBeta_congr (covExt cov) errCov chrOf
      (get_gene_indices_to_use chrOf tss use_chrs remove_hla) hY'
    by_cases h : hasConstCol cov
    · simp only [project_out_covariates, if_pos h, hbeta1]
      ring
    · simp only [project_out_covariates, if_neg h, hbeta2]
      ring

/-- Witness for C6 at a concrete input: one gene, the constant covariate
column `!![1]` (so the intercept branch with `hasConstCol` applies), no error
covariance; and the non-interference conjunct applied with `Y' = Y`. -/
theorem project_out_covariates_spec_witness :
    (project_out_covariates ![(3 : ℝ)] !![1] none (fun _ => "1") (fun _ => 0)
        ["1"] false =
      fun i => (![(3 : ℝ)] : Fin 1 → ℝ) i - ∑ k, (!![1] : Matrix (Fin 1) (Fin 1) ℝ) i k *
        fitBeta ![(3 : ℝ)] !![1] none (fun _ => "1")
          (get_gene_indices_to_use (fun _ => "1") (fun _ => 0) ["1"] false) k) ∧
    (∀ j, project_out_covariates ![(3 : ℝ)] !![1] none (fun _ => "1")
          (fun _ => 0) ["1"] false j - (![(3 : ℝ)] : Fin 1 → ℝ) j =
        project_out_covariates ![(3 : ℝ)] !![1] none (fun _ => "1")
          (fun _ => 0) ["1"] false j - (![(3 : ℝ)] : Fin 1 → ℝ) j) := by
  have hconst : hasConstCol (!![1] : Matrix (Fin 1) (Fin 1) ℝ) := by
    refine ⟨0, ?_⟩
    have : npVar (fun i : Fin 1 => (!![1] : Matrix (Fin 1) (Fin 1) ℝ) i 0) = 0 := by
      simp [npVar]
    rw [this]
    simp only [isCloseZero, abs_zero]
    norm_num
  exact ⟨(project_out_covariates_spec ![(3 : ℝ)] !![1] none (fun _ => "1")
      (fun _ => 0) ["1"] false).1 hconst,
    (project_out_covariates_spec ![(3 : ℝ)] !![1] none (fun _ => "1")
      (fun _ => 0) ["1"] false).2.2 ![(3 : ℝ)] (fun _ _ => rfl)⟩

/-! ### Block linear algebra (claims C9 and C1) -/

theorem blockSub_congr {m L : Type*} [DecidableEq L] {A A' : Matrix m m ℝ}
    {bl : m → L} (h : ∀ i j, bl i = bl j → A i j = A' i j) (l : L) :
    blockSub A bl l = blockSub A' bl l := by
  ext i j
  exact h i.1 j.1 (i.2.trans j.2.symm)

/-- C9.  The block operations never read off-block entries of their matrix
argument: two matrices agreeing on all within-block entries give identical
`block_Linv`, `block_AB` (both array shapes) and `block_BA` results, for
every second argument. -/
theorem block_ops_offblock_independent {m L : Type*} [Fintype m]
    [DecidableEq m] [LinearOrder m] [DecidableEq L] (A A' : Matrix m m ℝ)
    (bl : m → L) (h : ∀ i j, bl i = bl j → A i j = A' i j) :
    block_Linv A bl = block_Linv A' bl ∧
    (∀ (p : Type) (B : Matrix m p ℝ), block_AB A bl B = block_AB A' bl B) ∧
    (∀ (p : Type) (B : Matrix p m ℝ), block_BA A bl B = block_BA A' bl B) ∧
    (∀ v : m → ℝ, block_ABv A bl v = block_ABv A' bl v) := by
  refine ⟨?_, ?_, ?_, ?_⟩
  · ext i j
    simp only [block_Linv, blockPlace, Matrix.of_apply]
    rw [blockSub_congr h (bl i)]
  · intro p B
    ext i j
    simp only [block_AB, Matrix.of_apply]
    refine Finset.sum_congr rfl fun k _ => ?_
    by_cases hk : bl k = bl i
    · rw [if_pos hk, if_pos hk, h i k hk.symm]
    · rw [if_neg hk, if_neg hk]
  · intro p B
    ext i j
    simp only [block_BA, Matrix.of_apply]
    refine Finset.sum_congr rfl fun k _ => ?_
    by_cases hk : bl k = bl j
    · rw [if_pos hk, if_pos hk, h k j hk]
    · rw [if_neg hk, if_neg hk]
  · intro v
    funext i
    simp only [block_ABv]
    refine Finset.sum_congr rfl fun k _ => ?_
    by_cases hk : bl k = bl i
    · rw [if_pos hk, if_pos hk, h i k hk.symm]
    · rw [if_neg hk, if_neg hk]

/-- Witness for C9: `A` and `A'` agree in the two diagonal blocks of the
labeling `![0, 1]` but differ in both off-block entries. -/
theorem block_ops_offblock_independent_witness :
    block_Linv (!![1, 2; 3, 4] : Matrix (Fin 2) (Fin 2) ℝ) ![0, 1] =
      block_Linv (!![1, 5; 6, 4] : Matrix (Fin 2) (Fin 2) ℝ) ![0, 1] ∧
    ∀ v : Fin 2 → ℝ,
      block_ABv (!![1, 2; 3, 4] : Matrix (Fin 2) (Fin 2) ℝ) ![0, 1] v =
        block_ABv (!![1, 5; 6, 4] : Matrix (Fin 2) (Fin 2) ℝ) ![0, 1] v := by
  have h : ∀ i j : Fin 2, (![0, 1] : Fin 2 → ℕ) i = ![0, 1] j →
      (!![1, 2; 3, 4] : Matrix (Fin 2) (Fin 2) ℝ) i j = !![1, 5; 6, 4] i j := by
    intro i j hij
    fin_cases i <;> fin_cases j <;> first
      | rfl
      | exact absurd hij (by decide)
  exact ⟨(block_ops_offblock_independent _ _ ![0, 1] h).1,
    (block_ops_offblock_independent _ _ ![0, 1] h).2.2.2⟩

theorem sum_block {m L : Type*} [Fintype m] [DecidableEq L] (bl : m → L)
    (l : L) (f : m → ℝ) (hf : ∀ k, bl k ≠ l → f k = 0) :
    ∑ k, f k = ∑ k : {k : m // bl k = l}, f k.1 := by
  classical
  rw [← Finset.sum_filter_add_sum_filter_not Finset.univ (fun k => bl k = l) f]
  have h2 : ∑ k ∈ Finset.univ.filter (fun k => ¬bl k = l), f k = 0 :=
    Finset.sum_eq_zero fun k hk => hf k (Finset.mem_filter.mp hk).2
  rw [h2, add_zero]
  exact Finset.sum_subtype _ (fun k => by simp) f

theorem blockPlace_offBlock {m L : Type*} [DecidableEq L] (bl : m → L)
    (f : ∀ l, Matrix {i : m // bl i = l} {i : m // bl i = l} ℝ) {i j : m}
    (h : bl i ≠ bl j) : blockPlace bl f i j = 0 :=
  dif_neg h

theorem blockSub_blockPlace {m L : Type*} [DecidableEq L] (bl : m → L)
    (f : ∀ l, Matrix {i : m // bl i = l} {i : m // bl i = l} ℝ) (l : L) :
    blockSub (blockPlace bl f) bl l = f l := by
  ext i j
  obtain ⟨a, ha⟩ := i
  obtain ⟨b, hb⟩ := j
  subst ha
  show blockPlace bl f a b = _
  show dite (bl a = bl b) _ _ = _
  rw [dif_pos hb.symm]

theorem offBlock_mul {m L : Type*} [Fintype m] [DecidableEq L]
    {M N : Matrix m m ℝ} (bl : m → L)
    (hM : ∀ i j, bl i ≠ bl j → M i j = 0)
    (hN : ∀ i j, bl i ≠ bl j → N i j = 0) :
    ∀ i j, bl i ≠ bl j → (M * N) i j = 0 := by
  intro i j hij
  rw [Matrix.mul_apply]
  refine Finset.sum_eq_zero fun k _ => ?_
  by_cases hk : bl i = bl k
  · rw [hN k j (fun hkj => hij (hk.trans hkj)), mul_zero]
  · rw [hM i k hk, zero_mul]

theorem blockSub_mul {m L : Type*} [Fintype m] [DecidableEq m] [DecidableEq L]
    {M N : Matrix m m ℝ} (bl : m → L)
    (hM : ∀ i j, bl i ≠ bl j → M i j = 0) (l : L) :
    blockSub (M * N) bl l = blockSub M bl l * blockSub N bl l := by
  ext i j
  obtain ⟨a, ha⟩ := i
  obtain ⟨b, hb⟩ := j
  show (M * N) a b = _
  rw [Matrix.mul_apply, Matrix.mul_apply]
  exact sum_block bl l (fun k => M a k * N k b)
    (fun k hk => by
      show M a k * N k b = 0
      rw [hM a k (fun h => hk (h.symm.trans ha)), zero_mul])

theorem blockSub_transpose {m L : Type*} [DecidableEq L]
    (M : Matrix m m ℝ) (bl : m → L) (l : L) :
    blockSub Mᵀ bl l = (blockSub M bl l)ᵀ :=
  rfl

theorem offBlock_transpose {m L : Type*} {M : Matrix m m ℝ} {bl : m → L}
    (hM : ∀ i j, bl i ≠ bl j → M i j = 0) :
    ∀ i j, bl i ≠ bl j → Mᵀ i j = 0 :=
  fun i j h => hM j i (Ne.symm h)

theorem posDef_blockSub {m L : Type*} [Fintype m] [DecidableEq m]
    [DecidableEq L] {A : Matrix m m ℝ} (hA : A.PosDef) (bl : m → L) (l : L) :
    (blockSub A bl l).PosDef := by
  constructor
  · exact hA.1.submatrix _
  · intro x hx
    classical
    set y : m → ℝ := fun k => if h : bl k = l then x ⟨k, h⟩ else 0 with hy
    have hyx : ∀ k : {k : m // bl k = l}, y k.1 = x k := by
      intro k
      rw [hy]
      simp only [k.2, dif_pos]
    have hyz : ∀ k, bl k ≠ l → y k = 0 := by
      intro k hk
      rw [hy]
      simp only [dif_neg hk]
    have hyne : y ≠ 0 := by
      intro h0
      refine hx (funext fun k => ?_)
      have := congrFun h0 k.1
      rw [hyx k] at this
      exact this
    have hq := hA.2 y hyne
    have hstar : star y = y := star_trivial y
    have hstarx : star x = x := star_trivial x
    rw [hstar] at hq
    have hrw : dotProduct y (A *ᵥ y) =
        dotProduct (star x) (blockSub A bl l *ᵥ x) := by
      rw [hstarx, dotProduct, dotProduct]
      rw [sum_block bl l (fun i => y i * (A *ᵥ y) i)
        (fun k hk => by
          show y k * (A *ᵥ y) k = 0
          rw [hyz k hk, zero_mul])]
      refine Finset.sum_congr rfl fun i _ => ?_
      rw [hyx i]
      congr 1
      show (A *ᵥ y) i.1 = (blockSub A bl l *ᵥ x) i
      rw [Matrix.mulVec, Matrix.mulVec, dotProduct, dotProduct]
      rw [sum_block bl l (fun k => A i.1 k * y k)
        (fun k hk => by
          show A i.1 k * y k = 0
          rw [hyz k hk, mul_zero])]
      refine Finset.sum_congr rfl fun k _ => ?_
      rw [hyx k]
      rfl
    rw [hrw] at hq
    exact hq

theorem posDef_submatrix_equiv {p q : Type*} [Fintype p] [Fintype q]
    (e : p ≃ q) {M : Matrix q q ℝ} (hM : M.PosDef) :
    (M.submatrix e e).PosDef := by
  constructor
  · exact hM.1.submatrix e
  · intro x hx
    have hx' : (fun j => x (e.symm j)) ≠ 0 := by
      intro h0
      refine hx (funext fun i => ?_)
      have h1 := congrFun h0 (e i)
      simpa using h1
    have hq := hM.2 (fun j => x (e.symm j)) hx'
    have hrw : dotProduct (star x) (M.submatrix e e *ᵥ x) =
        dotProduct (star fun j => x (e.symm j))
          (M *ᵥ fun j => x (e.symm j)) := by
      rw [Matrix.submatrix_mulVec_equiv]
      rw [star_trivial, star_trivial, dotProduct, dotProduct]
      refine Fintype.sum_equiv e _ _ fun i => ?_
      simp only [Function.comp_apply, Equiv.symm_apply_apply]
      rfl
    rw [hrw]
    exact hq

theorem exists_cholFactor_fin {k : ℕ} {S : Matrix (Fin k) (Fin k) ℝ}
    (hS : S.PosDef) : ∃ CL, IsCholFactor S CL := by
  haveI : WellFoundedLT (Fin k) := Finite.to_wellFoundedLT
  haveI := LDL.invertibleLowerInv hS
  letI : DecidableEq (Fin k) := fun a b => instDecidableEq_mathlib a b
  have hdiagPSD : (LDL.diag hS).PosSemidef := by
    rw [LDL.diag_eq_lowerInv_conj]
    exact hS.posSemidef.mul_mul_conjTranspose_same (LDL.lowerInv hS)
  have hd : ∀ i, 0 ≤ LDL.diagEntries hS i := by
    intro i
    have h2 := hdiagPSD.2 (Pi.single i 1)
    unfold LDL.diag at h2
    simpa [Matrix.mulVec_single, Matrix.dotProduct, Pi.single_apply] using h2
  set w : Fin k → ℝ := fun i => Real.sqrt (LDL.diagEntries hS i) with hw
  refine ⟨LDL.lower hS * Matrix.diagonal w, ?_, ?_⟩
  · have hlowInvTri : (LDL.lowerInv hS).BlockTriangular OrderDual.toDual :=
      fun i j hij => LDL.lowerInv_triangular hS hij
    have hlowTri : (LDL.lower hS).BlockTriangular OrderDual.toDual :=
      Matrix.blockTriangular_inv_of_blockTriangular hlowInvTri
    intro i j hij
    rw [Matrix.mul_diagonal]
    rw [hlowTri (show OrderDual.toDual j < OrderDual.toDual i from hij),
      zero_mul]
  · have hconj : (LDL.lower hS)ᴴ = (LDL.lower hS)ᵀ := by
      ext i j
      simp [Matrix.conjTranspose_apply]
    have hww : Matrix.diagonal w * Matrix.diagonal w =
        Matrix.diagonal (LDL.diagEntries hS) := by
      rw [Matrix.diagonal_mul_diagonal]
      refine congrArg Matrix.diagonal (funext fun i => ?_)
      show Real.sqrt (LDL.diagEntries hS i) *
        Real.sqrt (LDL.diagEntries hS i) = _
      exact Real.mul_self_sqrt (hd i)
    have hstep : LDL.lower hS * Matrix.diagonal w *
        (LDL.lower hS * Matrix.diagonal w)ᵀ =
        LDL.lower hS * LDL.diag hS * (LDL.lower hS)ᴴ := by
      rw [Matrix.transpose_mul, Matrix.diagonal_transpose, hconj]
      unfold LDL.diag
      rw [← hww]
      simp only [Matrix.mul_assoc]
    rw [hstep, LDL.lower_conj_diag]

theorem exists_cholFactor {k' : Type*} [Fintype k'] [DecidableEq k']
    [LinearOrder k'] {M : Matrix k' k' ℝ} (hM : M.PosDef) :
    ∃ CL, IsCholFactor M CL := by
  set e := monoEquivOfFin k' rfl with he
  have hMe : (M.submatrix e e).PosDef := posDef_submatrix_equiv e.toEquiv hM
  obtain ⟨CL0, htri, hmul⟩ := exists_cholFactor_fin hMe
  refine ⟨CL0.submatrix e.symm e.symm, ?_, ?_⟩
  · intro i j hij
    exact htri (e.symm i) (e.symm j) (e.symm.lt_iff_lt.mpr hij)
  · have h1 : (CL0.submatrix (⇑e.symm) (⇑e.symm))ᵀ =
        CL0ᵀ.submatrix (⇑e.symm) (⇑e.symm) := Matrix.transpose_submatrix _ _ _
    rw [h1]
    have h2 : CL0.submatrix (⇑e.symm) (⇑e.symm) *
        CL0ᵀ.submatrix (⇑e.symm) (⇑e.symm) =
        (CL0 * CL0ᵀ).submatrix (⇑e.symm) (⇑e.symm) := by
      have h3 := Matrix.submatrix_mul_equiv CL0 CL0ᵀ (⇑e.symm)
        e.symm.toEquiv (⇑e.symm)
      simpa using h3
    rw [h2, hmul]
    ext i j
    simp [Matrix.submatrix_apply]

theorem npCholesky_spec {k' : Type*} [Fintype k'] [DecidableEq k']
    [LinearOrder k'] {M : Matrix k' k' ℝ} (hM : M.PosDef) :
    IsCholFactor M (npCholesky M) := by
  rw [npCholesky, dif_pos (exists_cholFactor hM)]
  exact (exists_cholFactor hM).choose_spec

/-- C1.  For a symmetric positive-definite block-diagonal `A`, the matrix
`L = block_Linv(A, P)` (which holds the inverse Cholesky factor of each block
in the corresponding block of an otherwise-zero matrix) satisfies
`L @ A @ L.T = I` on every within-block entry and is exactly zero on every
off-block entry. -/
theorem block_Linv_whitens {m L : Type*} [Fintype m] [DecidableEq m]
    [LinearOrder m] [DecidableEq L] (A : Matrix m m ℝ) (bl : m → L)
    (hA : A.PosDef) (hbd : ∀ i j, bl i ≠ bl j → A i j = 0) :
    (∀ i j, bl i = bl j →
      (block_Linv A bl * A * (block_Linv A bl)ᵀ) i j =
        (1 : Matrix m m ℝ) i j) ∧
    (∀ i j, bl i ≠ bl j →
      (block_Linv A bl * A * (block_Linv A bl)ᵀ) i j = 0) := by
  have hLoff : ∀ i j, bl i ≠ bl j → block_Linv A bl i j = 0 :=
    fun i j h => blockPlace_offBlock bl _ h
  have hLtoff := offBlock_transpose hLoff
  have hLAoff := offBlock_mul bl hLoff hbd
  have hLALtoff := offBlock_mul bl hLAoff hLtoff
  have hblock : ∀ l,
      blockSub (block_Linv A bl * A * (block_Linv A bl)ᵀ) bl l = 1 := by
    intro l
    have h1 : blockSub (block_Linv A bl * A * (block_Linv A bl)ᵀ) bl l =
        blockSub (block_Linv A bl * A) bl l *
          blockSub (block_Linv A bl)ᵀ bl l :=
      blockSub_mul bl hLAoff l
    have h2 : blockSub (block_Linv A bl * A) bl l =
        blockSub (block_Linv A bl) bl l * blockSub A bl l :=
      blockSub_mul bl hLoff l
    have h3 : blockSub (block_Linv A bl) bl l =
        (npCholesky (blockSub A bl l))⁻¹ :=
      blockSub_blockPlace bl _ l
    have h4 : blockSub (block_Linv A bl)ᵀ bl l =
        (blockSub (block_Linv A bl) bl l)ᵀ :=
      blockSub_transpose _ bl l
    obtain ⟨htri, hmul⟩ := npCholesky_spec (posDef_blockSub hA bl l)
    set C := npCholesky (blockSub A bl l) with hC
    have hdet : IsUnit C.det := by
      have h5 : C.det * C.det = (blockSub A bl l).det := by
        calc C.det * C.det = C.det * Cᵀ.det := by rw [Matrix.det_transpose]
          _ = (C * Cᵀ).det := (Matrix.det_mul C Cᵀ).symm
          _ = _ := by rw [hmul]
      have hpos := (posDef_blockSub hA bl l).det_pos
      have hne : C.det ≠ 0 := by
        intro h0
        rw [h0, zero_mul] at h5
        exact absurd h5.symm (ne_of_gt hpos)
      exact hne.isUnit
    rw [h1, h2, h3, h4, h3, ← hmul]
    rw [Matrix.transpose_nonsing_inv]
    have hassoc : C⁻¹ * (C * Cᵀ) = C⁻¹ * C * Cᵀ :=
      (Matrix.mul_assoc _ _ _).symm
    rw [hassoc, Matrix.nonsing_inv_mul C hdet, Matrix.one_mul,
      Matrix.mul_nonsing_inv Cᵀ (by rwa [Matrix.det_transpose])]
  refine ⟨?_, hLALtoff⟩
  intro i j hij
  have hsub := congrFun (congrFun (hblock (bl i)) ⟨i, rfl⟩) ⟨j, hij.symm⟩
  have hL : blockSub (block_Linv A bl * A * (block_Linv A bl)ᵀ) bl (bl i)
      ⟨i, rfl⟩ ⟨j, hij.symm⟩ =
      (block_Linv A bl * A * (block_Linv A bl)ᵀ) i j := rfl
  rw [hL] at hsub
  rw [hsub, Matrix.one_apply, Matrix.one_apply]
  simp only [Subtype.mk.injEq]

/-- Witness for C1 at the one-block identity input `A = 1`, `P = const 0`:
`L A Lᵀ` equals the identity within the block (and there are no off-block
entries to check). -/
theorem block_Linv_whitens_witness :
    (block_Linv (1 : Matrix (Fin 1) (Fin 1) ℝ) (fun _ : Fin 1 => (0 : ℕ)) *
      (1 : Matrix (Fin 1) (Fin 1) ℝ) *
      (block_Linv (1 : Matrix (Fin 1) (Fin 1) ℝ) (fun _ : Fin 1 => (0 : ℕ)))ᵀ)
        0 0 =
      (1 : Matrix (Fin 1) (Fin 1) ℝ) 0 0 :=
  (block_Linv_whitens (1 : Matrix (Fin 1) (Fin 1) ℝ) (fun _ : Fin 1 => (0 : ℕ))
    Matrix.PosDef.one (fun _ _ h => absurd rfl h)).1 0 0 rfl

/-! ### `regularize_error_cov` (claim C2) -/

theorem minEig_eq {k : Type*} [Fintype k] [DecidableEq k]
    {M : Matrix k k ℝ} (hM : M.IsHermitian) [hne : Nonempty k] :
    minEig M = Finset.univ.inf' Finset.univ_nonempty hM.eigenvalues := by
  rw [minEig, dif_pos (⟨hM, hne⟩ : M.IsHermitian ∧ Nonempty k)]

theorem minEig_le {k : Type*} [Fintype k] [DecidableEq k]
    {M : Matrix k k ℝ} (hM : M.IsHermitian) [Nonempty k] (i : k) :
    minEig M ≤ hM.eigenvalues i := by
  rw [minEig_eq hM]
  exact Finset.inf'_le _ (Finset.mem_univ i)

theorem le_minEig {k : Type*} [Fintype k] [DecidableEq k]
    {M : Matrix k k ℝ} (hM : M.IsHermitian) [Nonempty k] {c : ℝ}
    (h : ∀ i, c ≤ hM.eigenvalues i) : c ≤ minEig M := by
  rw [minEig_eq hM]
  exact Finset.le_inf' _ _ fun i _ => h i

theorem sub_smul_one_posSemidef {k : Type*} [Fintype k] [DecidableEq k]
    {N : Matrix k k ℝ} (hN : N.IsHermitian) {c : ℝ}
    (hc : ∀ i, c ≤ hN.eigenvalues i) : (N - c • 1).PosSemidef := by
  have hU : (hN.eigenvectorUnitary : Matrix k k ℝ) *
      (star hN.eigenvectorUnitary : Matrix k k ℝ) = 1 :=
    Matrix.mem_unitaryGroup_iff.mp hN.eigenvectorUnitary.2
  have hsmul : c • (1 : Matrix k k ℝ) =
      (hN.eigenvectorUnitary : Matrix k k ℝ) * (c • 1) *
        (star hN.eigenvectorUnitary : Matrix k k ℝ) := by
    rw [Matrix.mul_smul, Matrix.mul_one, Matrix.smul_mul, hU]
  have hdd : Matrix.diagonal (RCLike.ofReal ∘ hN.eigenvalues) - c • 1 =
      Matrix.diagonal (fun i => hN.eigenvalues i - c) := by
    ext i j
    by_cases hij : i = j
    · subst hij
      simp
    · simp [Matrix.diagonal_apply_ne _ hij, Matrix.one_apply_ne hij]
  have hdecomp : N - c • 1 =
      (hN.eigenvectorUnitary : Matrix k k ℝ) *
        Matrix.diagonal (fun i => hN.eigenvalues i - c) *
        (star hN.eigenvectorUnitary : Matrix k k ℝ) := by
    conv_lhs => rw [hN.spectral_theorem, hsmul]
    rw [← Matrix.sub_mul, ← Matrix.mul_sub, hdd]
  rw [hdecomp]
  have hpsd : (Matrix.diagonal (fun i => hN.eigenvalues i - c)).PosSemidef :=
    Matrix.posSemidef_diagonal_iff.mpr fun i => sub_nonneg.mpr (hc i)
  have := hpsd.mul_mul_conjTranspose_same
    (hN.eigenvectorUnitary : Matrix k k ℝ)
  rwa [← Matrix.star_eq_conjTranspose] at this

theorem eig_ge_of_sub_posSemidef {k : Type*} [Fintype k] [DecidableEq k]
    {N : Matrix k k ℝ} (hN : N.IsHermitian) {c : ℝ}
    (h : (N - c • 1).PosSemidef) (i : k) : c ≤ hN.eigenvalues i := by
  set v : k → ℝ := (hN.eigenvectorBasis i : k → ℝ) with hv
  have hvv : dotProduct v v = 1 := by
    have hnorm : ‖hN.eigenvectorBasis i‖ = 1 :=
      hN.eigenvectorBasis.orthonormal.1 i
    have h2 : Real.sqrt (∑ j, ‖v j‖ ^ 2) = 1 := by
      rw [← EuclideanSpace.norm_eq]
      exact hnorm
    have hnn : 0 ≤ ∑ j, ‖v j‖ ^ 2 :=
      Finset.sum_nonneg fun j _ => sq_nonneg _
    have h3 : (∑ j, ‖v j‖ ^ 2) = 1 := by
      nlinarith [Real.sq_sqrt hnn]
    calc dotProduct v v = ∑ j, v j * v j := rfl
      _ = ∑ j, ‖v j‖ ^ 2 := by
          refine Finset.sum_congr rfl fun j _ => ?_
          rw [Real.norm_eq_abs, sq_abs, pow_two]
      _ = 1 := h3
  have hq := h.2 v
  rw [star_trivial] at hq
  have hexp : dotProduct v ((N - c • 1) *ᵥ v) =
      dotProduct v (N *ᵥ v) - c := by
    rw [Matrix.sub_mulVec, Matrix.dotProduct_sub]
    congr 1
    rw [Matrix.smul_mulVec_assoc, Matrix.one_mulVec, Matrix.dotProduct_smul,
      hvv, smul_eq_mul, mul_one]
  rw [hexp] at hq
  have heig : hN.eigenvalues i = dotProduct v (N *ᵥ v) := by
    have h4 := hN.eigenvalues_eq i
    simpa [star_trivial] using h4
  rw [heig]
  linarith

theorem smul_one_isHermitian {k : Type*} [Fintype k] [DecidableEq k]
    (c : ℝ) : (c • (1 : Matrix k k ℝ)).IsHermitian := by
  rw [Matrix.IsHermitian, Matrix.conjTranspose_smul, Matrix.conjTranspose_one,
    star_trivial]

theorem smul_one_posDef {k : Type*} [Fintype k] [DecidableEq k] {c : ℝ}
    (hc : 0 < c) : (c • (1 : Matrix k k ℝ)).PosDef := by
  refine ⟨smul_one_isHermitian c, ?_⟩
  intro x hx
  have h1 : (c • (1 : Matrix k k ℝ)) *ᵥ x = c • x := by
    rw [Matrix.smul_mulVec_assoc, Matrix.one_mulVec]
  rw [h1, Matrix.dotProduct_smul, smul_eq_mul]
  exact mul_pos hc (Matrix.dotProduct_star_self_pos_iff.mpr hx)

theorem blockSub_add_smul_one {m L : Type*} [DecidableEq m] [DecidableEq L]
    (A : Matrix m m ℝ) (bl : m → L) (l : L) (r : ℝ) :
    blockSub (A + r • 1) bl l = blockSub A bl l + r • 1 := by
  ext i j
  show (A + r • 1) i.1 j.1 = _
  by_cases hij : i.1 = j.1
  · have hij' : i = j := Subtype.ext hij
    subst hij'
    simp [blockSub]
  · have hne : i ≠ j := fun h => hij (congrArg Subtype.val h)
    simp [blockSub, Matrix.one_apply_ne hij, Matrix.one_apply_ne hne]

/-- C2.  `regularize_error_cov` returns exactly the input plus
`ridge * identity` with
`ridge = max(0, -min_lambda) + 0.05 + 0.9 * max(0, var(Y) - 1)`, where
`min_lambda` (`minLambda`) is the minimum over all chromosome blocks of the
block's smallest eigenvalue clamped so that only negative minima count; and
every block of the output is positive definite with smallest eigenvalue at
least `0.05`. -/
theorem regularize_error_cov_spec {n : ℕ} {L : Type*} [DecidableEq L]
    (error_cov : Matrix (Fin n) (Fin n) ℝ) (Y : Fin n → ℝ) (chr : Fin n → L)
    (hsym : error_cov.IsHermitian) :
    (regularize_error_cov error_cov Y chr = error_cov +
      (max 0 (-(minLambda error_cov chr)) + 0.05 +
        0.9 * max 0 (npVar Y - 1)) • (1 : Matrix (Fin n) (Fin n) ℝ)) ∧
    (∀ l ∈ Finset.univ.image chr,
      (blockSub (regularize_error_cov error_cov Y chr) chr l).PosDef ∧
      0.05 ≤ minEig (blockSub (regularize_error_cov error_cov Y chr) chr l))
    := by
  have hml : minLambda error_cov chr ≤ 0 :=
    Finset.min'_le _ 0 (Finset.mem_insert_self 0 _)
  have hridge_eq : |min (minLambda error_cov chr) 0| =
      max 0 (-(minLambda error_cov chr)) := by
    rw [min_eq_left hml, abs_of_nonpos hml,
      max_eq_right (neg_nonneg.mpr hml)]
  constructor
  · rw [regularize_error_cov, hridge_eq]
  · intro l hl
    obtain ⟨i0, -, hi0⟩ := Finset.mem_image.mp hl
    haveI hne : Nonempty {i : Fin n // chr i = l} := ⟨⟨i0, hi0⟩⟩
    set r : ℝ := |min (minLambda error_cov chr) 0| + 0.05 +
      0.9 * max 0 (npVar Y - 1) with hr
    have hBsub : blockSub (regularize_error_cov error_cov Y chr) chr l =
        blockSub error_cov chr l + r • 1 := by
      rw [regularize_error_cov, blockSub_add_smul_one]
    set B := blockSub error_cov chr l with hB
    have hBH : B.IsHermitian := hsym.submatrix _
    have hNH : (B + r • 1).IsHermitian := hBH.add (smul_one_isHermitian r)
    have hmin_le : minLambda error_cov chr ≤ minEig B := by
      refine Finset.min'_le _ _ ?_
      exact Finset.mem_insert_of_mem (Finset.mem_image_of_mem _ hl)
    have hr_ge : -(minEig B) + 0.05 ≤ r := by
      rw [hr, min_eq_left hml, abs_of_nonpos hml]
      have h1 : 0 ≤ 0.9 * max 0 (npVar Y - 1) := by
        have := le_max_left (0 : ℝ) (npVar Y - 1)
        nlinarith
      nlinarith [hmin_le]
    have heigs : ∀ i, minEig B + r ≤ hNH.eigenvalues i := by
      refine eig_ge_of_sub_posSemidef hNH ?_
      have hBB : B + r • 1 - (minEig B + r) • (1 : _) = B - minEig B • 1 := by
        rw [add_smul]
        module
      rw [hBB]
      exact sub_smul_one_posSemidef hBH fun i => minEig_le hBH i
    have heigs05 : ∀ i, (0.05 : ℝ) ≤ hNH.eigenvalues i := by
      intro i
      calc (0.05 : ℝ) ≤ minEig B + r := by linarith [hr_ge]
        _ ≤ hNH.eigenvalues i := heigs i
    constructor
    · rw [hBsub]
      have hpsd : (B + r • 1 - (0.05 : ℝ) • 1).PosSemidef :=
        sub_smul_one_posSemidef hNH heigs05
      have hpd : ((B + r • 1 - (0.05 : ℝ) • 1) +
          (0.05 : ℝ) • 1).PosDef :=
        Matrix.PosDef.posSemidef_add hpsd (smul_one_posDef (by norm_num))
      have hcl : (B + r • 1 - (0.05 : ℝ) • 1) + (0.05 : ℝ) • 1 =
          B + r • 1 := sub_add_cancel _ _
      rwa [hcl] at hpd
    · rw [hBsub]
      exact le_minEig hNH heigs05

/-- Witness for C2 at the 1×1 zero input (`n = 1`, `Y = 0`): the minimum
block eigenvalue is 0, the variance term vanishes, the ridge is exactly
`0.05`, and the regularized block is positive definite. -/
theorem regularize_error_cov_spec_witness :
    (blockSub (regularize_error_cov (0 : Matrix (Fin 1) (Fin 1) ℝ)
      (fun _ => 0) (fun _ : Fin 1 => (0 : ℕ))) (fun _ => 0) 0).PosDef ∧
    0.05 ≤ minEig (blockSub (regularize_error_cov
      (0 : Matrix (Fin 1) (Fin 1) ℝ) (fun _ => 0) (fun _ : Fin 1 => (0 : ℕ)))
      (fun _ => 0) 0) :=
  (regularize_error_cov_spec (0 : Matrix (Fin 1) (Fin 1) ℝ)
    (fun _ => 0) (fun _ => 0) Matrix.isHermitian_zero).2 0 (by decide)

end PoPS
